import Mathlib

/-!
Verification of the invisible-line-break substitution engine (src/main.ts).

The engine scans a rendered node tree for text leaves containing a
configurable trigger token and splices in break-marker nodes.  We embed the
tree as a nested inductive, the settings record, JavaScript string `split`
semantics (`String.prototype.split` with a string separator), and the
traversal/replacement functions, and prove the spec's claims about them.
-/

/-- A rendered DOM node: a text leaf with a string payload, or an element
with a tag name, a list of (style property, value) pairs, and children. -/
inductive Node : Type where
  | text : List Char → Node
  | element : String → List (String × String) → List Node → Node

mutual

/-- Decidable equality on nodes. -/
def Node.decEq : (a b : Node) → Decidable (a = b)
  | Node.text p, Node.text q =>
    match (inferInstance : Decidable (p = q)) with
    | isTrue h => isTrue (by rw [h])
    | isFalse h => isFalse (by intro hc; cases hc; exact h rfl)
  | Node.text _, Node.element _ _ _ => isFalse (fun hc => Node.noConfusion hc)
  | Node.element _ _ _, Node.text _ => isFalse (fun hc => Node.noConfusion hc)
  | Node.element t1 s1 c1, Node.element t2 s2 c2 =>
    match (inferInstance : Decidable (t1 = t2)), (inferInstance : Decidable (s1 = s2)), Node.decEqList c1 c2 with
    | isTrue h1, isTrue h2, isTrue h3 => isTrue (by rw [h1, h2, h3])
    | isFalse h1, _, _ => isFalse (by intro hc; cases hc; exact h1 rfl)
    | _, isFalse h2, _ => isFalse (by intro hc; cases hc; exact h2 rfl)
    | _, _, isFalse h3 => isFalse (by intro hc; cases hc; exact h3 rfl)

/-- Decidable equality on lists of nodes. -/
def Node.decEqList : (a b : List Node) → Decidable (a = b)
  | [], [] => isTrue rfl
  | [], _ :: _ => isFalse (fun hc => List.noConfusion hc)
  | _ :: _, [] => isFalse (fun hc => List.noConfusion hc)
  | a :: as, b :: bs =>
    match Node.decEq a b, Node.decEqList as bs with
    | isTrue h1, isTrue h2 => isTrue (by rw [h1, h2])
    | isFalse h1, _ => isFalse (by intro hc; cases hc; exact h1 rfl)
    | _, isFalse h2 => isFalse (by intro hc; cases hc; exact h2 rfl)

end

instance : DecidableEq Node := Node.decEq

/-- Whether a node is a text leaf. -/
def Node.isText : Node → Bool
  | Node.text _ => true
  | Node.element _ _ _ => false

/-- Embeds `LineBreakSettings` from src/main.ts.  `breakMethod` is kept as a
raw string: the loader performs no validation, so any string can reach the
engine. -/
structure LineBreakSettings where
  triggerWord : List Char
  breakMethod : String
  enabled : Bool
deriving DecidableEq

/-- Embeds `DEFAULT_SETTINGS` from src/main.ts. -/
def DEFAULT_SETTINGS : LineBreakSettings :=
  { triggerWord := (".break.".toList), breakMethod := ("zero-width"), enabled := true }

/-- A settings value whose trigger token is the empty string (reachable,
since the loader performs no emptiness check); used to exercise the
engine's defensive guard. -/
def emptyTokenSettings : LineBreakSettings :=
  { triggerWord := [], breakMethod := ("zero-width"), enabled := true }

/-- The default settings with the plugin disabled. -/
def disabledSettings : LineBreakSettings :=
  { triggerWord := (".break.".toList), breakMethod := ("zero-width"), enabled := false }

/-- A possibly-partial stored settings record, as produced by `loadData()`
(JSON: a missing key is `none`; a `null`/missing file is `none` at the
outer level). -/
structure StoredSettings where
  triggerWord : Option (List Char)
  breakMethod : Option String
  enabled : Option Bool
deriving DecidableEq

/-- Embeds `loadSettings` from src/main.ts:
`Object.assign({}, DEFAULT_SETTINGS, await this.loadData())` — every field
present in the stored record overrides the default, field by field; absent
fields keep the default. -/
def loadSettings (data : Option StoredSettings) : LineBreakSettings :=
  match data with
  | none => DEFAULT_SETTINGS
  | some d =>
    { triggerWord := d.triggerWord.getD DEFAULT_SETTINGS.triggerWord
      breakMethod := d.breakMethod.getD DEFAULT_SETTINGS.breakMethod
      enabled := d.enabled.getD DEFAULT_SETTINGS.enabled }

/-- Embeds `createLineBreak` from src/main.ts.  The `switch` on
`this.settings.breakMethod` builds a styled `span` for the recognized styles
`zero-width` and `css-break`, a `br` for `html-br`, and has a `default:` arm
returning a `br` for any other value.  `innerHTML = '&#8203;'` yields one
text child holding U+200B. -/
def createLineBreak (method : String) : Node :=
  if method = "zero-width" then
    Node.element ("span")
      [(("display"), ("block")), (("height"), ("1em")), (("lineHeight"), ("1em"))]
      [Node.text [Char.ofNat 8203]]
  else if method = "html-br" then
    Node.element ("br") [] []
  else if method = "css-break" then
    Node.element ("span")
      [(("display"), ("block")), (("content"), ("\x22\x22")), (("marginTop"), ("1em"))]
      []
  else
    Node.element ("br") [] []

/-- `startsWith pat s` holds when `pat` is an initial segment of `s`
(character-wise).  Used to embed substring search. -/
def startsWith : List Char → List Char → Bool
  | [], _ => true
  | _ :: _, [] => false
  | a :: pat, b :: s => a == b && startsWith pat s

/-- Embeds JavaScript `s.includes(tok)`: `tok` occurs as a contiguous
substring of `s` (the empty token occurs in every string). -/
def occursIn (tok : List Char) : List Char → Bool
  | [] => startsWith tok []
  | c :: rest => startsWith tok (c :: rest) || occursIn tok rest

/-- Work loop of JavaScript `String.prototype.split` with a non-empty string
separator: scan left to right; `skipCnt` counts separator characters still
being consumed after a match; `buf` holds the current fragment reversed. -/
def splitLoop (tok : List Char) : List Char → Nat → List Char → List (List Char)
  | [], _, buf => [buf.reverse]
  | _ :: rest, skipCnt + 1, buf => splitLoop tok rest skipCnt buf
  | c :: rest, 0, buf =>
    if startsWith tok (c :: rest) then
      buf.reverse :: splitLoop tok rest (tok.length - 1) []
    else
      splitLoop tok rest 0 (c :: buf)

/-- Embeds JavaScript `text.split(tok)` (ECMAScript `String.prototype.split`
with a string separator, no limit): with the empty separator the string is
exploded into its characters (and `"".split("")` is `[]`); otherwise the
string is cut at each left-to-right non-overlapping occurrence of `tok`. -/
def jsSplit (tok s : List Char) : List (List Char) :=
  if tok = [] then s.map (fun c => [c]) else splitLoop tok s 0 []

/-- Counts the left-to-right non-overlapping occurrences of `tok`
(the occurrences consumed by `jsSplit`), mirroring `splitLoop`. -/
def countLoop (tok : List Char) : List Char → Nat → Nat
  | [], _ => 0
  | _ :: rest, skipCnt + 1 => countLoop tok rest skipCnt
  | c :: rest, 0 =>
    if startsWith tok (c :: rest) then
      countLoop tok rest (tok.length - 1) + 1
    else
      countLoop tok rest 0

/-- Number of left-to-right non-overlapping occurrences of `tok` in `s`. -/
def countOcc (tok s : List Char) : Nat := countLoop tok s 0

/-- Embeds the `parts.forEach` fragment-building loop of
`replaceTextNodeWithBreaks`: for each part append a text node only when the
part is non-empty, and append one break node after every part except the
last. -/
def buildFragment (brk : Node) : List (List Char) → List Node
  | [] => []
  | part :: rest =>
    (if part.length > 0 then [Node.text part] else []) ++
      (match rest with
       | [] => []
       | _ :: _ => brk :: buildFragment brk rest)

/-- Embeds `replaceTextNodeWithBreaks` from src/main.ts: split the payload on
the trigger word; when at most one part results, return without touching the
node (`none`); otherwise produce the replacement node sequence.  (The
`parentNode` null check cannot fire in a rooted tree; see
`processChildren`.) -/
def replaceTextNodeWithBreaks (s : LineBreakSettings) (text : List Char) :
    Option (List Node) :=
  let parts := jsSplit s.triggerWord text
  if parts.length ≤ 1 then none
  else some (buildFragment (createLineBreak s.breakMethod) parts)

/-- The fate of one text leaf under `processLineBreaks`: it is collected when
its payload contains the trigger word (the `forEach` re-checks the same
condition), and then replaced by `replaceTextNodeWithBreaks`; otherwise it is
left untouched. -/
def processTextNode (s : LineBreakSettings) (p : List Char) : List Node :=
  if occursIn s.triggerWord p then
    match replaceTextNodeWithBreaks s p with
    | some repl => repl
    | none => [Node.text p]
  else
    [Node.text p]

mutual

/-- One node's contribution after `processLineBreaks` has run over the tree:
a text leaf becomes its replacement sequence (spliced into the parent in
place), an element keeps its tag and styles and has its descendant text
leaves processed. -/
def processNode (s : LineBreakSettings) : Node → List Node
  | Node.text p => processTextNode s p
  | Node.element t st cs => [Node.element t st (processChildren s cs)]

/-- Processes a child list: each child's replacement nodes are spliced in
order, independently of its siblings. -/
def processChildren (s : LineBreakSettings) : List Node → List Node
  | [] => []
  | n :: ns => processNode s n ++ processChildren s ns

end

/-- Embeds `processLineBreaks` from src/main.ts: the `TreeWalker` visits
every text node strictly below the root element (the root itself is never
returned by `walker.nextNode()`), and each collected node is replaced inside
its parent. -/
def processLineBreaks (s : LineBreakSettings) : Node → Node
  | Node.text p => Node.text p
  | Node.element t st cs => Node.element t st (processChildren s cs)

/-- Embeds `processLivePreview` from src/main.ts: it just calls
`processLineBreaks` on the same arguments. -/
def processLivePreview (s : LineBreakSettings) (el : Node) : Node :=
  processLineBreaks s el

/-- The first markdown post-processor registered in `onload`: it returns
without doing anything unless `settings.enabled`, then runs
`processLineBreaks`. -/
def readingPostProcessor (s : LineBreakSettings) (el : Node) : Node :=
  if s.enabled then processLineBreaks s el else el

/-- The second markdown post-processor registered in `onload`: it returns
without doing anything unless `settings.enabled`, then runs
`processLivePreview`. -/
def livePreviewPostProcessor (s : LineBreakSettings) (el : Node) : Node :=
  if s.enabled then processLivePreview s el else el

/-- Reads a replacement sequence back to a string: text-fragment payloads
are kept, and every non-text node (a break marker) is mapped back to the
trigger token.  Used to state the round-trip law. -/
def renderBack (tok : List Char) : List Node → List Char
  | [] => []
  | Node.text p :: rest => p ++ renderBack tok rest
  | Node.element _ _ _ :: rest => tok ++ renderBack tok rest

/-! ### Lemmas about `startsWith` and `occursIn` -/

theorem startsWith_iff (pat s : List Char) :
    startsWith pat s = true ↔ ∃ r, s = pat ++ r := by
  induction pat generalizing s with
  | nil => simp [startsWith]
  | cons a pat ih =>
    cases s with
    | nil => simp [startsWith]
    | cons b s =>
      simp only [startsWith, Bool.and_eq_true, beq_iff_eq, ih]
      constructor
      · rintro ⟨rfl, r, rfl⟩
        exact ⟨r, rfl⟩
      · rintro ⟨r, hr⟩
        cases hr
        exact ⟨rfl, r, rfl⟩

theorem startsWith_append (tok r : List Char) : startsWith tok (tok ++ r) = true :=
  (startsWith_iff tok (tok ++ r)).2 ⟨r, rfl⟩

theorem startsWith_refl (tok : List Char) : startsWith tok tok = true := by
  have h := startsWith_append tok []
  simpa using h

theorem occursIn_iff (tok s : List Char) :
    occursIn tok s = true ↔ ∃ pre post, s = pre ++ tok ++ post := by
  induction s with
  | nil =>
    simp only [occursIn, startsWith_iff]
    constructor
    · rintro ⟨r, hr⟩
      exact ⟨[], r, by simpa using hr⟩
    · rintro ⟨pre, post, hp⟩
      have h0 : pre = [] ∧ tok = [] ∧ post = [] := by
        have h1 := List.append_eq_nil.1 hp.symm
        have h2 := List.append_eq_nil.1 h1.1
        exact ⟨h2.1, h2.2, h1.2⟩
      exact ⟨[], by simp [h0.2.1]⟩
  | cons c rest ih =>
    simp only [occursIn, Bool.or_eq_true, startsWith_iff, ih]
    constructor
    · rintro (⟨r, hr⟩ | ⟨pre, post, hp⟩)
      · exact ⟨[], r, by simpa using hr⟩
      · exact ⟨c :: pre, post, by simp [hp]⟩
    · rintro ⟨pre, post, hp⟩
      cases pre with
      | nil => exact Or.inl ⟨post, by simpa using hp⟩
      | cons x xs =>
        right
        refine ⟨xs, post, ?_⟩
        have := hp
        simp only [List.cons_append] at this
        exact (List.cons.injEq _ _ _ _ ▸ this).2

theorem occursIn_self (tok : List Char) : occursIn tok tok = true := by
  rw [occursIn_iff]
  exact ⟨[], [], by simp⟩

theorem occursIn_sandwich (tok pre post : List Char) :
    occursIn tok (pre ++ tok ++ post) = true := by
  rw [occursIn_iff]
  exact ⟨pre, post, rfl⟩

theorem occursIn_nil_left (s : List Char) : occursIn [] s = true := by
  rw [occursIn_iff]
  exact ⟨[], s, rfl⟩

/-! ### Lemmas about `splitLoop`, `countLoop` and `List.intercalate` -/

theorem splitLoop_skip (tok : List Char) :
    ∀ (t s buf : List Char), splitLoop tok (t ++ s) t.length buf = splitLoop tok s 0 buf := by
  intro t
  induction t with
  | nil => intro s buf; rfl
  | cons a t ih =>
    intro s buf
    simpa [splitLoop] using ih s buf

theorem splitLoop_ne_nil (tok : List Char) :
    ∀ (s : List Char) (skipCnt : Nat) (buf : List Char), splitLoop tok s skipCnt buf ≠ [] := by
  intro s
  induction s with
  | nil => intro skipCnt buf; simp [splitLoop]
  | cons c rest ih =>
    intro skipCnt buf
    match skipCnt with
    | skipCnt + 1 => simpa [splitLoop] using ih skipCnt buf
    | 0 =>
      by_cases hsw : startsWith tok (c :: rest) = true
      · simp [splitLoop, hsw]
      · simpa [splitLoop, hsw] using ih 0 (c :: buf)

theorem intercalate_cons_of_ne_nil (tok x : List Char) (l : List (List Char)) (hl : l ≠ []) :
    List.intercalate tok (x :: l) = x ++ tok ++ List.intercalate tok l := by
  cases l with
  | nil => exact absurd rfl hl
  | cons y l2 => simp [List.intercalate, List.intersperse]

theorem splitLoop_intercalate (tok : List Char) (htok : tok ≠ []) :
    ∀ (n : Nat) (s buf : List Char), s.length ≤ n →
      List.intercalate tok (splitLoop tok s 0 buf) = buf.reverse ++ s := by
  intro n
  induction n with
  | zero =>
    intro s buf hlen
    have hs : s = [] := List.length_eq_zero.1 (Nat.le_zero.1 hlen)
    subst hs
    simp [splitLoop, List.intercalate]
  | succ n ih =>
    intro s buf hlen
    cases s with
    | nil => simp [splitLoop, List.intercalate]
    | cons c rest =>
      by_cases hsw : startsWith tok (c :: rest) = true
      · obtain ⟨r, hr⟩ := (startsWith_iff tok (c :: rest)).1 hsw
        obtain ⟨d, tk, htk⟩ := List.exists_cons_of_ne_nil htok
        subst htk
        have h2 : rest = tk ++ r := by
          simpa using congrArg List.tail hr
        have hstep : splitLoop (d :: tk) (c :: rest) 0 buf =
            buf.reverse :: splitLoop (d :: tk) r 0 [] := by
          rw [splitLoop, if_pos hsw]
          have h3 : (d :: tk).length - 1 = tk.length := by simp
          rw [h3, h2, splitLoop_skip]
        have hr2 : r.length ≤ n := by
          have h1 : rest.length ≤ n := Nat.le_of_succ_le_succ (by simpa using hlen)
          have h4 : r.length ≤ rest.length := by rw [h2]; simp
          exact Nat.le_trans h4 h1
        rw [hstep,
          intercalate_cons_of_ne_nil _ _ _ (splitLoop_ne_nil (d :: tk) r 0 []),
          ih r [] hr2]
        rw [hr]
        simp
      · have hstep : splitLoop tok (c :: rest) 0 buf = splitLoop tok rest 0 (c :: buf) := by
          rw [splitLoop, if_neg hsw]
        rw [hstep, ih rest (c :: buf) (Nat.le_of_succ_le_succ (by simpa using hlen))]
        simp

theorem splitLoop_length_eq_countLoop (tok : List Char) :
    ∀ (s : List Char) (skipCnt : Nat) (buf : List Char),
      (splitLoop tok s skipCnt buf).length = countLoop tok s skipCnt + 1 := by
  intro s
  induction s with
  | nil => intro skipCnt buf; simp [splitLoop, countLoop]
  | cons c rest ih =>
    intro skipCnt buf
    match skipCnt with
    | skipCnt + 1 => simpa [splitLoop, countLoop] using ih skipCnt buf
    | 0 =>
      by_cases hsw : startsWith tok (c :: rest) = true
      · simp [splitLoop, countLoop, hsw, ih]
      · simpa [splitLoop, countLoop, hsw] using ih 0 (c :: buf)

theorem countLoop_zero_of_not_occursIn (tok : List Char) :
    ∀ (s : List Char), occursIn tok s = false → countLoop tok s 0 = 0 := by
  intro s
  induction s with
  | nil => intro hocc; simp [countLoop]
  | cons c rest ih =>
    intro hocc
    have h2 : startsWith tok (c :: rest) = false ∧ occursIn tok rest = false := by
      have := hocc
      simp only [occursIn, Bool.or_eq_false_iff] at this
      exact this
    rw [countLoop, if_neg (by simp [h2.1])]
    exact ih h2.2

theorem splitLoop_of_not_occursIn (tok : List Char) :
    ∀ (s buf : List Char), occursIn tok s = false →
      splitLoop tok s 0 buf = [buf.reverse ++ s] := by
  intro s
  induction s with
  | nil => intro buf hocc; simp [splitLoop]
  | cons c rest ih =>
    intro buf hocc
    have h2 : startsWith tok (c :: rest) = false ∧ occursIn tok rest = false := by
      have := hocc
      simp only [occursIn, Bool.or_eq_false_iff] at this
      exact this
    rw [splitLoop, if_neg (by simp [h2.1])]
    rw [ih (c :: buf) h2.2]
    simp

theorem splitLoop_sandwich (tok B : List Char) (htok : tok ≠ []) :
    ∀ (A buf : List Char),
      (∀ i, i < A.length → startsWith tok ((A ++ tok ++ B).drop i) = false) →
      splitLoop tok (A ++ tok ++ B) 0 buf = (buf.reverse ++ A) :: splitLoop tok B 0 [] := by
  intro A
  induction A with
  | nil =>
    intro buf hno
    obtain ⟨d, tk, htk⟩ := List.exists_cons_of_ne_nil htok
    subst htk
    have hstep : splitLoop (d :: tk) ((d :: tk) ++ B) 0 buf =
        buf.reverse :: splitLoop (d :: tk) B 0 [] := by
      rw [show ((d :: tk) ++ B) = d :: (tk ++ B) by simp]
      rw [splitLoop, if_pos (by simpa using startsWith_append (d :: tk) B)]
      have h3 : (d :: tk).length - 1 = tk.length := by simp
      rw [h3, splitLoop_skip]
    simpa using hstep
  | cons a A ih =>
    intro buf hno
    have h0 : startsWith tok (a :: (A ++ tok ++ B)) = false := by
      simpa using hno 0 (by simp)
    rw [show ((a :: A) ++ tok ++ B) = a :: (A ++ tok ++ B) by simp]
    rw [splitLoop, if_neg (by simpa using h0)]
    rw [ih (a :: buf) (fun i hi => by simpa using hno (i + 1) (by simpa using Nat.succ_lt_succ hi))]
    simp

/-! ### Lemmas about `buildFragment` and `renderBack` -/

theorem buildFragment_mem (brk : Node) :
    ∀ (parts : List (List Char)) (n : Node), n ∈ buildFragment brk parts →
      n = brk ∨ ∃ p, p ≠ [] ∧ n = Node.text p := by
  intro parts
  induction parts with
  | nil => intro n hn; simp [buildFragment] at hn
  | cons part rest ih =>
    intro n hn
    cases rest with
    | nil =>
      rw [buildFragment] at hn
      by_cases hp : part.length > 0
      · rw [if_pos hp] at hn
        right
        refine ⟨part, ?_, ?_⟩
        · intro hc; subst hc; simp at hp
        · simpa using hn
      · rw [if_neg hp] at hn
        simp at hn
    | cons q qs =>
      rw [buildFragment] at hn
      rcases List.mem_append.1 hn with h1 | h2
      · by_cases hp : part.length > 0
        · rw [if_pos hp] at h1
          right
          refine ⟨part, ?_, ?_⟩
          · intro hc; subst hc; simp at hp
          · simpa using h1
        · rw [if_neg hp] at h1
          simp at h1
      · rcases List.mem_cons.1 h2 with h3 | h4
        · exact Or.inl h3
        · exact ih n h4

theorem renderBack_append (tok : List Char) :
    ∀ (xs ys : List Node), renderBack tok (xs ++ ys) = renderBack tok xs ++ renderBack tok ys := by
  intro xs
  induction xs with
  | nil => intro ys; simp [renderBack]
  | cons x xs ih =>
    intro ys
    cases x with
    | text p => simp [renderBack, ih]
    | element t st cs => simp [renderBack, ih]

theorem renderBack_buildFragment (tok : List Char) (brk : Node)
    (hbrk : brk.isText = false) :
    ∀ (parts : List (List Char)),
      renderBack tok (buildFragment brk parts) = List.intercalate tok parts := by
  intro parts
  induction parts with
  | nil => simp [buildFragment, renderBack, List.intercalate]
  | cons part rest ih =>
    obtain ⟨t, st, cs, hb⟩ : ∃ t st cs, brk = Node.element t st cs := by
      cases brk with
      | text p => simp [Node.isText] at hbrk
      | element t st cs => exact ⟨t, st, cs, rfl⟩
    have hfrag : renderBack tok (if part.length > 0 then [Node.text part] else []) = part := by
      by_cases hp : part.length > 0
      · simp [hp, renderBack]
      · have hp2 : part = [] := by
          cases part with
          | nil => rfl
          | cons x xs => simp at hp
        simp [hp, hp2, renderBack]
    cases rest with
    | nil =>
      rw [buildFragment]
      simpa [renderBack, List.intercalate] using hfrag
    | cons q qs =>
      rw [buildFragment, renderBack_append, hfrag]
      rw [show (brk :: buildFragment brk (q :: qs)) = [brk] ++ buildFragment brk (q :: qs) by rfl]
      rw [renderBack_append, ih]
      rw [intercalate_cons_of_ne_nil tok part (q :: qs) (by simp)]
      simp [hb, renderBack, List.append_assoc]

theorem buildFragment_countP (brk : Node) (hbrk : brk.isText = false) :
    ∀ (parts : List (List Char)),
      (buildFragment brk parts).countP (fun n => !n.isText) = parts.length - 1 := by
  intro parts
  induction parts with
  | nil => simp [buildFragment]
  | cons part rest ih =>
    have hfrag : (if part.length > 0 then [Node.text part] else []).countP
        (fun n => !n.isText) = 0 := by
      by_cases hp : part.length > 0
      · simp [hp, Node.isText]
      · simp [hp]
    cases rest with
    | nil =>
      rw [buildFragment]
      simpa using hfrag
    | cons q qs =>
      rw [buildFragment, List.countP_append, hfrag]
      rw [List.countP_cons_of_pos _ _ (by simp [hbrk]), ih]
      simp

theorem buildFragment_intersperse (brk : Node) :
    ∀ (parts : List (List Char)), (∀ p ∈ parts, p ≠ []) →
      buildFragment brk parts = List.intersperse brk (parts.map Node.text) := by
  intro parts
  induction parts with
  | nil => simp [buildFragment]
  | cons part rest ih =>
    intro hne
    have hp : part.length > 0 := by
      have h1 : part ≠ [] := hne part (by simp)
      cases part with
      | nil => exact absurd rfl h1
      | cons x xs => simp
    cases rest with
    | nil => simp [buildFragment, hp, List.intersperse]
    | cons q qs =>
      rw [buildFragment, if_pos hp, ih (fun p hp2 => hne p (by simp [hp2]))]
      simp [List.intersperse]

/-! ### Lemmas about the traversal -/

theorem createLineBreak_isText (m : String) : (createLineBreak m).isText = false := by
  rw [createLineBreak]
  by_cases h1 : m = "zero-width"
  · rw [if_pos h1]; rfl
  rw [if_neg h1]
  by_cases h2 : m = "html-br"
  · rw [if_pos h2]; rfl
  rw [if_neg h2]
  by_cases h3 : m = "css-break"
  · rw [if_pos h3]; rfl
  rw [if_neg h3]; rfl

theorem processTextNode_untouched (s : LineBreakSettings) (p : List Char)
    (h : occursIn s.triggerWord p = false) : processTextNode s p = [Node.text p] := by
  rw [processTextNode, if_neg (by simp [h])]

theorem processTextNode_guard (s : LineBreakSettings) (p : List Char)
    (h : (jsSplit s.triggerWord p).length ≤ 1) : processTextNode s p = [Node.text p] := by
  rw [processTextNode]
  by_cases hocc : occursIn s.triggerWord p = true
  · rw [if_pos hocc]
    simp [replaceTextNodeWithBreaks, h]
  · rw [if_neg hocc]

theorem processTextNode_replace (s : LineBreakSettings) (p : List Char)
    (hocc : occursIn s.triggerWord p = true)
    (hlen : 2 ≤ (jsSplit s.triggerWord p).length) :
    processTextNode s p =
      buildFragment (createLineBreak s.breakMethod) (jsSplit s.triggerWord p) := by
  rw [processTextNode, if_pos hocc]
  have h2 : ¬ (jsSplit s.triggerWord p).length ≤ 1 := by omega
  simp [replaceTextNodeWithBreaks, h2]

theorem processNode_text (s : LineBreakSettings) (p : List Char) :
    processNode s (Node.text p) = processTextNode s p := by
  simp [processNode]

theorem processNode_element (s : LineBreakSettings) (t : String)
    (st : List (String × String)) (cs : List Node) :
    processNode s (Node.element t st cs) = [Node.element t st (processChildren s cs)] := by
  simp [processNode]

theorem processChildren_nil (s : LineBreakSettings) : processChildren s [] = [] := by
  simp [processChildren]

theorem processChildren_cons (s : LineBreakSettings) (n : Node) (ns : List Node) :
    processChildren s (n :: ns) = processNode s n ++ processChildren s ns := by
  simp [processChildren]

theorem processChildren_append (s : LineBreakSettings) :
    ∀ xs ys : List Node,
      processChildren s (xs ++ ys) = processChildren s xs ++ processChildren s ys := by
  intro xs
  induction xs with
  | nil => intro ys; simp [processChildren_nil]
  | cons x xs ih => intro ys; simp [processChildren_cons, ih]

theorem processChildren_length_unaffected (s : LineBreakSettings) :
    ∀ cs : List Node, (∀ pl, Node.text pl ∈ cs → occursIn s.triggerWord pl = false) →
      (processChildren s cs).length = cs.length := by
  intro cs
  induction cs with
  | nil => intro h; simp [processChildren_nil]
  | cons n ns ih =>
    intro h
    rw [processChildren_cons, List.length_append,
      ih (fun pl hpl => h pl (List.mem_cons_of_mem _ hpl))]
    have hn : (processNode s n).length = 1 := by
      cases n with
      | text p =>
        rw [processNode_text, processTextNode_untouched s p (h p (by simp))]
        rfl
      | element t st cs2 => rw [processNode_element]; rfl
    rw [hn, List.length_cons]
    omega

/-! ### Claim theorems -/

/-- C1: for a text payload with N ≥ 1 occurrences of a non-empty trigger
token (occurrences counted left to right, non-overlapping — the split
semantics the spec fixes), the replacement sequence contains exactly N
break-marker nodes (its non-text nodes are all equal to the break marker and
number exactly N), and concatenating the text-fragment payloads in document
order with each break marker mapped back to the token reconstructs the
original payload. -/
theorem C1_break_count_and_roundtrip (s : LineBreakSettings) (text : List Char)
    (htok : s.triggerWord ≠ []) (hN : 1 ≤ countOcc s.triggerWord text) :
    ((processNode s (Node.text text)).countP (fun n => !n.isText) =
        countOcc s.triggerWord text) ∧
    renderBack s.triggerWord (processNode s (Node.text text)) = text ∧
    ∀ n ∈ processNode s (Node.text text), n.isText = false →
      n = createLineBreak s.breakMethod := by
  have hocc : occursIn s.triggerWord text = true := by
    cases h : occursIn s.triggerWord text with
    | true => rfl
    | false =>
      have h0 := countLoop_zero_of_not_occursIn s.triggerWord text h
      rw [countOcc] at hN
      omega
  have hsplit : jsSplit s.triggerWord text = splitLoop s.triggerWord text 0 [] := by
    rw [jsSplit, if_neg htok]
  have hlen : (jsSplit s.triggerWord text).length = countOcc s.triggerWord text + 1 := by
    rw [hsplit, splitLoop_length_eq_countLoop]
    rfl
  have h2 : 2 ≤ (jsSplit s.triggerWord text).length := by omega
  have hrepl : processNode s (Node.text text) =
      buildFragment (createLineBreak s.breakMethod) (jsSplit s.triggerWord text) := by
    rw [processNode_text, processTextNode_replace s text hocc h2]
  refine ⟨?_, ?_, ?_⟩
  · rw [hrepl, buildFragment_countP _ (createLineBreak_isText _), hlen]
    omega
  · rw [hrepl, renderBack_buildFragment _ _ (createLineBreak_isText _), hsplit,
      splitLoop_intercalate s.triggerWord htok text.length text [] (Nat.le_refl _)]
    rfl
  · intro n hn hnt
    rcases buildFragment_mem _ _ n (hrepl ▸ hn) with h | ⟨p, hp, hp2⟩
    · exact h
    · rw [hp2] at hnt
      simp [Node.isText] at hnt

theorem C1_break_count_and_roundtrip_witness :
    DEFAULT_SETTINGS.triggerWord ≠ [] ∧
    1 ≤ countOcc DEFAULT_SETTINGS.triggerWord ("a.break.b".toList) ∧
    renderBack DEFAULT_SETTINGS.triggerWord
        (processNode DEFAULT_SETTINGS (Node.text ("a.break.b".toList))) =
      "a.break.b".toList :=
  ⟨by decide, by decide,
    (C1_break_count_and_roundtrip DEFAULT_SETTINGS ("a.break.b".toList)
      (by decide) (by decide)).2.1⟩

/-- C2: when the configuration has `enabled = false`, both registered
post-processors return any input tree unchanged — nothing is collected and
nothing is mutated. -/
theorem C2_disabled_noop (s : LineBreakSettings) (el : Node) (h : s.enabled = false) :
    readingPostProcessor s el = el ∧ livePreviewPostProcessor s el = el := by
  constructor <;> simp [readingPostProcessor, livePreviewPostProcessor, h]

theorem C2_disabled_noop_witness :
    disabledSettings.enabled = false ∧
    readingPostProcessor disabledSettings (Node.text ("a.break.b".toList)) =
      Node.text ("a.break.b".toList) :=
  ⟨rfl, (C2_disabled_noop disabledSettings (Node.text ("a.break.b".toList)) rfl).1⟩

/-- C3 fails as stated: `Object.assign` keeps a *present* stored value even
when it is the empty string, so a stored empty-string trigger token resolves
to the empty string, not to the default ".break.". -/
theorem C3_counterexample :
    (loadSettings
        (some { triggerWord := some [], breakMethod := none, enabled := none })).triggerWord
      = [] ∧
    DEFAULT_SETTINGS.triggerWord ≠ [] :=
  ⟨rfl, by decide⟩

/-- C3 (amended): an absent stored record, or an absent trigger-token field,
resolves to the default ".break."; but a present stored trigger token — the
empty string included — is kept verbatim, so the resolver does not enforce
non-emptiness. -/
theorem C3_amended (d : StoredSettings) :
    loadSettings none = DEFAULT_SETTINGS ∧
    (d.triggerWord = none →
      (loadSettings (some d)).triggerWord = ".break.".toList) ∧
    (∀ tokv, d.triggerWord = some tokv → (loadSettings (some d)).triggerWord = tokv) := by
  refine ⟨rfl, ?_, ?_⟩
  · intro h
    simp [loadSettings, h, DEFAULT_SETTINGS]
  · intro tokv h
    simp [loadSettings, h]

theorem C3_amended_witness :
    ({ triggerWord := none, breakMethod := none,
        enabled := none } : StoredSettings).triggerWord = none ∧
    (loadSettings
        (some { triggerWord := none, breakMethod := none, enabled := none })).triggerWord
      = ".break.".toList :=
  ⟨rfl, (C3_amended { triggerWord := none, breakMethod := none, enabled := none }).2.1 rfl⟩

/-- C4: a text leaf whose payload is exactly the (non-empty) trigger token is
replaced by exactly one break marker and no text fragments; and the fragment
builder never creates a text node for an empty part of the split. -/
theorem C4_exact_token_single_marker :
    (∀ s : LineBreakSettings, s.triggerWord ≠ [] →
      processNode s (Node.text s.triggerWord) = [createLineBreak s.breakMethod]) ∧
    (∀ (brk : Node) (parts : List (List Char)) (n : Node), n ∈ buildFragment brk parts →
      n = brk ∨ ∃ p, p ≠ [] ∧ n = Node.text p) := by
  constructor
  · intro s htok
    have hocc := occursIn_self s.triggerWord
    have hsplit : jsSplit s.triggerWord s.triggerWord = [[], []] := by
      have h4 := splitLoop_sandwich s.triggerWord [] htok [] []
        (fun i hi => absurd hi (by simp))
      simp only [List.nil_append, List.append_nil] at h4
      rw [jsSplit, if_neg htok, h4]
      simp [splitLoop]
    rw [processNode_text, processTextNode_replace s _ hocc (by rw [hsplit]; simp), hsplit]
    rfl
  · exact fun brk parts n hn => buildFragment_mem brk parts n hn

theorem C4_exact_token_single_marker_witness :
    DEFAULT_SETTINGS.triggerWord ≠ [] ∧
    processNode DEFAULT_SETTINGS (Node.text (".break.".toList)) =
      [createLineBreak ("zero-width")] :=
  ⟨by decide, by
    have h := C4_exact_token_single_marker.1 DEFAULT_SETTINGS (by decide)
    simpa [DEFAULT_SETTINGS] using h⟩

/-- C5 fails as stated: with the default token ".break.", take
A = "x.break" and B = "x" — both non-empty and neither contains the token —
yet the payload A ++ token ++ B = "x.break.break.x" has its leftmost token
occurrence spanning the A/token boundary, so the replacement is
[TextFragment "x", BreakMarker, TextFragment "break.x"], not
[TextFragment A, BreakMarker, TextFragment B]. -/
theorem C5_counterexample :
    ("x.break".toList ≠ ([] : List Char)) ∧ ("x".toList ≠ ([] : List Char)) ∧
    occursIn DEFAULT_SETTINGS.triggerWord ("x.break".toList) = false ∧
    occursIn DEFAULT_SETTINGS.triggerWord ("x".toList) = false ∧
    "x.break".toList ++ DEFAULT_SETTINGS.triggerWord ++ "x".toList =
      "x.break.break.x".toList ∧
    processNode DEFAULT_SETTINGS (Node.text ("x.break.break.x".toList)) ≠
      [Node.text ("x.break".toList), createLineBreak DEFAULT_SETTINGS.breakMethod,
        Node.text ("x".toList)] := by
  refine ⟨by decide, by decide, by decide, by decide, by decide, ?_⟩
  rw [processNode_text]
  decide

/-- C5 (amended): for a payload A ++ token ++ B with a non-empty token,
A and B non-empty, and the token occurring at no position of the payload
other than immediately after A (i.e. the token occurs exactly once as a
substring), the leaf is replaced by exactly
[TextFragment A, BreakMarker, TextFragment B]. -/
theorem C5_amended (s : LineBreakSettings) (A B : List Char)
    (htok : s.triggerWord ≠ []) (hA : A ≠ []) (hB : B ≠ [])
    (huniq : ∀ i < (A ++ s.triggerWord ++ B).length,
      startsWith s.triggerWord ((A ++ s.triggerWord ++ B).drop i) = true →
        i = A.length) :
    processNode s (Node.text (A ++ s.triggerWord ++ B)) =
      [Node.text A, createLineBreak s.breakMethod, Node.text B] := by
  have hlenA : A.length < (A ++ s.triggerWord ++ B).length := by
    obtain ⟨d, tk, htk⟩ := List.exists_cons_of_ne_nil htok
    simp [htk]
  have hno : ∀ i, i < A.length →
      startsWith s.triggerWord ((A ++ s.triggerWord ++ B).drop i) = false := by
    intro i hi
    cases h : startsWith s.triggerWord ((A ++ s.triggerWord ++ B).drop i) with
    | false => rfl
    | true =>
      have := huniq i (Nat.lt_trans hi hlenA) h
      omega
  have hBno : occursIn s.triggerWord B = false := by
    cases h : occursIn s.triggerWord B with
    | false => rfl
    | true =>
      obtain ⟨pre, post, hp⟩ := (occursIn_iff s.triggerWord B).1 h
      have hre : A ++ s.triggerWord ++ B =
          (A ++ s.triggerWord ++ pre) ++ (s.triggerWord ++ post) := by
        rw [hp]
        simp [List.append_assoc]
      have hsw : startsWith s.triggerWord
          ((A ++ s.triggerWord ++ B).drop (A ++ s.triggerWord ++ pre).length) = true := by
        rw [hre, List.drop_left]
        exact startsWith_append _ _
      have hlt : (A ++ s.triggerWord ++ pre).length <
          (A ++ s.triggerWord ++ B).length := by
        obtain ⟨d, tk, htk⟩ := List.exists_cons_of_ne_nil htok
        rw [hre]
        simp [htk]
      have heq := huniq _ hlt hsw
      obtain ⟨d, tk, htk⟩ := List.exists_cons_of_ne_nil htok
      rw [htk] at heq
      simp at heq
  have hsplit : jsSplit s.triggerWord (A ++ s.triggerWord ++ B) = [A, B] := by
    rw [jsSplit, if_neg htok, splitLoop_sandwich s.triggerWord B htok A [] hno,
      splitLoop_of_not_occursIn s.triggerWord B [] hBno]
    simp
  have hocc : occursIn s.triggerWord (A ++ s.triggerWord ++ B) = true := by
    have h := occursIn_sandwich s.triggerWord A B
    simpa [List.append_assoc] using h
  rw [processNode_text, processTextNode_replace s _ hocc (by rw [hsplit]; simp), hsplit]
  rw [buildFragment, if_pos (List.length_pos.2 hA)]
  rw [buildFragment, if_pos (List.length_pos.2 hB)]
  rfl

theorem C5_amended_witness :
    DEFAULT_SETTINGS.triggerWord ≠ [] ∧
    ("x".toList ≠ ([] : List Char)) ∧ ("y".toList ≠ ([] : List Char)) ∧
    (∀ i < ("x".toList ++ DEFAULT_SETTINGS.triggerWord ++ "y".toList).length,
      startsWith DEFAULT_SETTINGS.triggerWord
          (("x".toList ++ DEFAULT_SETTINGS.triggerWord ++ "y".toList).drop i) = true →
        i = ("x".toList).length) ∧
    processNode DEFAULT_SETTINGS
        (Node.text ("x".toList ++ DEFAULT_SETTINGS.triggerWord ++ "y".toList)) =
      [Node.text ("x".toList), createLineBreak DEFAULT_SETTINGS.breakMethod,
        Node.text ("y".toList)] :=
  ⟨by decide, by decide, by decide, by decide,
    C5_amended DEFAULT_SETTINGS ("x".toList) ("y".toList)
      (by decide) (by decide) (by decide) (by decide)⟩

/-- C6: a text leaf whose payload does not contain the trigger token stays
byte-identical, in place, among its siblings — each sibling (and each other
subtree) is processed independently of it; and when no text child of the
parent contains the token, the parent's child count is unchanged. -/
theorem C6_untouched_leaf_frame (s : LineBreakSettings) (t : String)
    (st : List (String × String)) (pre post : List Node) (p : List Char)
    (h : occursIn s.triggerWord p = false) :
    processNode s (Node.element t st (pre ++ Node.text p :: post)) =
      [Node.element t st
        (processChildren s pre ++ Node.text p :: processChildren s post)] ∧
    ((∀ pl, Node.text pl ∈ pre ++ Node.text p :: post →
        occursIn s.triggerWord pl = false) →
      (processChildren s (pre ++ Node.text p :: post)).length =
        (pre ++ Node.text p :: post).length) := by
  constructor
  · rw [processNode_element, processChildren_append, processChildren_cons,
      processNode_text, processTextNode_untouched s p h]
    simp
  · intro hall
    exact processChildren_length_unaffected s _ hall

theorem C6_untouched_leaf_frame_witness :
    occursIn DEFAULT_SETTINGS.triggerWord ("hello".toList) = false ∧
    processNode DEFAULT_SETTINGS
        (Node.element ("p") [] [Node.text ("hello".toList)]) =
      [Node.element ("p") [] [Node.text ("hello".toList)]] := by
  refine ⟨by decide, ?_⟩
  have h := (C6_untouched_leaf_frame DEFAULT_SETTINGS ("p") [] [] []
    ("hello".toList) (by decide)).1
  simpa [processChildren_nil] using h

/-- C7: every break style other than the three recognized ones produces the
`br` node — the same shape as the recognized hard-break style — and the
three recognized styles produce pairwise structurally distinct markers. -/
theorem C7_style_dispatch :
    (∀ m : String, m ≠ "zero-width" → m ≠ "html-br" → m ≠ "css-break" →
      createLineBreak m = createLineBreak ("html-br")) ∧
    createLineBreak ("zero-width") ≠ createLineBreak ("html-br") ∧
    createLineBreak ("zero-width") ≠ createLineBreak ("css-break") ∧
    createLineBreak ("html-br") ≠ createLineBreak ("css-break") := by
  refine ⟨?_, by decide, by decide, by decide⟩
  intro m h1 h2 h3
  rw [createLineBreak, if_neg h1, if_neg h2, if_neg h3]
  decide

theorem C7_style_dispatch_witness :
    ("dotted" : String) ≠ "zero-width" ∧
    createLineBreak ("dotted") = createLineBreak ("html-br") :=
  ⟨by decide, C7_style_dispatch.1 ("dotted") (by decide) (by decide) (by decide)⟩

/-- C8: the engine is total and fault-isolating per leaf — a container is
processed by processing each child independently (so one leaf's skipped
replacement never blocks another's), and a text leaf whose split yields
fewer than two parts is left untouched. -/
theorem C8_fault_isolation :
    (∀ (s : LineBreakSettings) (t : String) (st : List (String × String))
        (cs : List Node),
      processNode s (Node.element t st cs) = [Node.element t st (processChildren s cs)]) ∧
    (∀ (s : LineBreakSettings) (n : Node) (ns : List Node),
      processChildren s (n :: ns) = processNode s n ++ processChildren s ns) ∧
    (∀ (s : LineBreakSettings) (p : List Char),
      (jsSplit s.triggerWord p).length ≤ 1 →
        processNode s (Node.text p) = [Node.text p]) := by
  refine ⟨fun s t st cs => processNode_element s t st cs,
    fun s n ns => processChildren_cons s n ns, ?_⟩
  intro s p h
  rw [processNode_text]
  exact processTextNode_guard s p h

theorem C8_fault_isolation_witness :
    (jsSplit emptyTokenSettings.triggerWord ("a".toList)).length ≤ 1 ∧
    processNode emptyTokenSettings (Node.text ("a".toList)) = [Node.text ("a".toList)] :=
  ⟨by decide, C8_fault_isolation.2.2 emptyTokenSettings ("a".toList) (by decide)⟩

/-- C9: the live-preview path is extensionally the primary path — for every
configuration and tree it produces exactly the same result. -/
theorem C9_live_preview_same (s : LineBreakSettings) (el : Node) :
    processLivePreview s el = processLineBreaks s el := rfl

/-- C10: the engine does not enforce the non-empty-token invariant — if the
empty trigger token reaches it, a text leaf of length ≥ 2 is exploded into
its characters with a break marker between every adjacent pair, while a
leaf of length 0 or 1 is left untouched. -/
theorem C10_empty_token (s : LineBreakSettings) (p : List Char)
    (htok : s.triggerWord = []) :
    (p.length ≤ 1 → processNode s (Node.text p) = [Node.text p]) ∧
    (2 ≤ p.length →
      processNode s (Node.text p) =
        List.intersperse (createLineBreak s.breakMethod)
          (p.map (fun c => Node.text [c]))) := by
  have hsplit : jsSplit s.triggerWord p = p.map (fun c => [c]) := by
    rw [jsSplit, if_pos htok]
  constructor
  · intro hlen
    rw [processNode_text]
    exact processTextNode_guard s p (by rw [hsplit]; simpa using hlen)
  · intro hlen
    have hocc : occursIn s.triggerWord p = true := by
      rw [htok]
      exact occursIn_nil_left p
    rw [processNode_text,
      processTextNode_replace s p hocc (by rw [hsplit]; simpa using hlen), hsplit]
    have hparts : ∀ q ∈ p.map (fun c => [c]), q ≠ ([] : List Char) := by
      intro q hq
      obtain ⟨c, hc, hq2⟩ := List.mem_map.1 hq
      rw [← hq2]
      simp
    rw [buildFragment_intersperse _ _ hparts, List.map_map]
    rfl

theorem C10_empty_token_witness :
    emptyTokenSettings.triggerWord = [] ∧
    processNode emptyTokenSettings (Node.text ("a".toList)) = [Node.text ("a".toList)] ∧
    processNode emptyTokenSettings (Node.text ("ab".toList)) =
      List.intersperse (createLineBreak ("zero-width"))
        (("ab".toList).map (fun c => Node.text [c])) :=
  ⟨rfl,
    (C10_empty_token emptyTokenSettings ("a".toList) rfl).1 (by decide),
    (C10_empty_token emptyTokenSettings ("ab".toList) rfl).2 (by decide)⟩
